import Mathlib

/-!
Shallow embedding of `MDP.py`: a chain MDP, a tabular Q-learning agent and a
quantile-regression Q-learning agent, together with the convergence checker and
training loop.  Value tables are functions `Fin S → Fin A → K` (resp. with a
quantile axis `Fin N`) over a linear ordered field `K`; the ambient randomness
of the Python code (numpy noise draws, epsilon draws, uniform tie-breaking) is
made explicit as input parameters, and per-transition mutation is modelled by
returning an updated agent record.
-/

namespace DeepRL

variable {K : Type*} [LinearOrderedField K]

/-- The chain environment of `Chain.__init__`: `num_states` chain cells, the
current integer state (the escape action observes the sentinel `-1`), and the
two noise scales.  -/
structure Chain (K : Type*) where
  num_states : ℕ
  state : ℤ
  up_std : K
  left_std : K

/-- `Chain.reset`: the state returns to 0 and is also the observation. -/
def Chain.reset (c : Chain K) : Chain K × ℤ :=
  ({ c with state := 0 }, 0)

/-- `Chain.step`.  `z` is the standard-normal draw `np.random.randn()` made
explicit.  Action 0 advances the chain (reward `z * left_std`, plus the bonus
10 on termination), action 1 escapes immediately with state observation `-1`
and reward `z * up_std`.  Any other action falls through both branches of the
Python `if`/`elif`, producing no transition, which we model as `none`.  The
returned tuple is (mutated environment, observed state, reward, done). -/
def Chain.step (c : Chain K) (action : ℤ) (z : K) : Option (Chain K × ℤ × K × Bool) :=
  if action = 0 then
    let s' := c.state + 1
    let done : Bool := decide (s' = (c.num_states : ℤ))
    let reward : K := z * c.left_std + (if done then 10 else 0)
    some ({ c with state := s' }, s', reward, done)
  else if action = 1 then
    some (c, -1, z * c.up_std, true)
  else
    none

/-- `np.max` over a nonempty vector of values. -/
def npMax {A : ℕ} [NeZero A] (f : Fin A → K) : K :=
  Finset.univ.sup' (Finset.univ_nonempty (α := Fin A)) f

/-- `np.argmax` over a nonempty vector: numpy scans left to right keeping the
current index and replacing it only on a strict improvement, hence it returns
the first index attaining the maximum. -/
def npArgmax {A : ℕ} [NeZero A] (f : Fin A → K) : Fin A :=
  (List.finRange A).foldl (fun best i => if f best < f i then i else best)
    ⟨0, Nat.pos_of_ne_zero (NeZero.ne A)⟩

/-- `.mean(-1)` over an axis of size `N`. -/
def npMean {N : ℕ} (f : Fin N → K) : K :=
  (∑ i, f i) / (N : K)

/-- Python/numpy indexing of a length-`n` axis by a possibly negative integer:
a negative index counts from the end; an index out of `[-n, n)` raises
(`none`). -/
def pyIndex (n : ℕ) (i : ℤ) : Option (Fin n) :=
  let j : ℤ := if i < 0 then i + n else i
  if h : 0 ≤ j ∧ j < n then some ⟨j.toNat, by omega⟩ else none

/-- The tabular Q-learning agent `QAgent`: a state × action table of scalar
values plus the hyperparameters, and the cumulative environment step count. -/
structure QAgent (K : Type*) (S A : ℕ) where
  q_values : Fin S → Fin A → K
  epsilon : K
  discount : K
  lr : K
  total_steps : ℕ

/-- One loop iteration of `QAgent.episode` after the environment step: the
step counter increments and the table entry at the transition's
(state, action) receives the TD(0) update
`Q[s,a] += lr * (reward + target - Q[s,a])` with
`target = 0` when done and `discount * max Q[next_state]` otherwise. -/
def QAgent.transitionUpdate {S A : ℕ} [NeZero A] (ag : QAgent K S A) (state : Fin S)
    (action : Fin A) (reward : K) (next_state : Fin S) (done : Bool) : QAgent K S A :=
  let target : K := if done then 0 else ag.discount * npMax (fun a => ag.q_values next_state a)
  let td_error : K := reward + target - ag.q_values state action
  { ag with
    total_steps := ag.total_steps + 1
    q_values := fun s a =>
      if s = state ∧ a = action then ag.q_values s a + ag.lr * td_error
      else ag.q_values s a }

/-- The distributional agent `QuantileAgent`: a state × action × quantile
table, the hyperparameters, the cumulative-density vector stored at
construction, and the exploration configuration. -/
structure QuantileAgent (K : Type*) (S A N : ℕ) where
  q_values : Fin S → Fin A → Fin N → K
  epsilon : K
  discount : K
  lr : K
  cumulative_density : Fin N → K
  mean_exploration : Bool
  active_quantile : ℤ
  total_steps : ℕ

/-- The vector `(2 * np.arange(N) + 1) / (2 * N)` computed once in
`QuantileAgent.__init__`. -/
def cumulativeDensity (N : ℕ) : Fin N → K :=
  fun i => (2 * ((i : ℕ) : K) + 1) / (2 * (N : K))

/-- `QuantileAgent.__init__` with a zero-initialised table. -/
def QuantileAgent.init (S A N : ℕ) (lr epsilon discount : K) (mean_exploration : Bool)
    (active_quantile : ℤ) : QuantileAgent K S A N :=
  { q_values := fun _ _ _ => 0
    epsilon := epsilon
    discount := discount
    lr := lr
    cumulative_density := cumulativeDensity N
    mean_exploration := mean_exploration
    active_quantile := active_quantile
    total_steps := 0 }

/-- The result of one call to an `act` method, with the randomness left
abstract: either the epsilon branch (a uniformly random action) or a uniform
draw from the explicit candidate list built by the list comprehension
`[i for i in range(action_dim) if q[i] == best_q]`. -/
inductive ActionDraw (A : ℕ) where
  | uniformRandom : ActionDraw A
  | uniformAmong : List (Fin A) → ActionDraw A

/-- `QuantileAgent.act`.  `r` is the explicit `np.random.rand()` draw.  In
training mode (`isEval = false`) the epsilon branch fires when `r < epsilon`;
otherwise the per-action summary is the quantile mean when `mean_exploration`
and the single `active_quantile` entry (Python negative indexing; an invalid
index raises, modelled as `none`) when not.  In evaluation mode the summary is
always the quantile mean and epsilon is never consulted. -/
def QuantileAgent.act {S A N : ℕ} [NeZero A] (ag : QuantileAgent K S A N) (state : Fin S)
    (isEval : Bool) (r : K) : Option (ActionDraw A) :=
  if isEval = false then
    if r < ag.epsilon then some .uniformRandom
    else
      match (if ag.mean_exploration then some (fun a => npMean (ag.q_values state a))
             else (pyIndex N ag.active_quantile).map (fun k a => ag.q_values state a k)) with
      | none => none
      | some q =>
        let best_q := npMax q
        some (.uniformAmong ((List.finRange A).filter (fun i => decide (q i = best_q))))
  else
    let q := fun a => npMean (ag.q_values state a)
    let best_q := npMax q
    some (.uniformAmong ((List.finRange A).filter (fun i => decide (q i = best_q))))

/-- `QuantileAgent.huber` with the code's default width `k = 1.0`:
`0.5 * x^2 * cond + k * (|x| - 0.5 * k) * (1 - cond)` where `cond` is the
detached indicator of `|x| < k`. -/
def huber (x : K) (k : K := 1) : K :=
  let cond : K := if |x| < k then 1 else 0
  0.5 * x ^ 2 * cond + k * (|x| - 0.5 * k) * (1 - cond)

/-- `torch.sign`, with `sign 0 = 0` (the subgradient torch uses for
`abs` at 0). -/
def sgn (x : K) : K :=
  if x < 0 then -1 else if 0 < x then 1 else 0

/-- The derivative torch's backward pass computes for `huber` at `x`: the
indicator `cond` is detached, so only `x^2` and `|x|` are differentiated,
giving `x * cond + k * sign x * (1 - cond)`. -/
def huberGrad (x : K) (k : K := 1) : K :=
  let cond : K := if |x| < k then 1 else 0
  x * cond + k * sgn x * (1 - cond)

/-- The quantile-regression loss of `QuantileAgent.episode` lines 140-144:
`diff[i,j] = target[i] - current[j]` over all `N × N` pairs,
`loss[i,j] = huber(diff[i,j]) * |cd[j] - 1{diff[i,j] < 0}|` (the
cumulative-density row vector is broadcast along the current axis `j`), and
the total is the mean over the `N * N` entries. -/
def quantileLoss {N : ℕ} (cd t q : Fin N → K) : K :=
  (∑ i, ∑ j, huber (t i - q j) * |cd j - if t i - q j < 0 then 1 else 0|) / ((N : K) * N)

/-- The gradient of `quantileLoss` in the current quantile vector, as
`loss.backward()` computes it: the indicator weight and the huber `cond` are
detached constants, each `diff[i,j]` has derivative `-1` in `q j`, so
`grad[j] = (∑ i, -huberGrad (t i - q j) * |cd j - 1{diff < 0}|) / (N * N)`. -/
def quantileGrad {N : ℕ} (cd t q : Fin N → K) (j : Fin N) : K :=
  (∑ i, -huberGrad (t i - q j) * |cd j - if t i - q j < 0 then 1 else 0|) / ((N : K) * N)

/-- Line 147: `q_values[state, action] -= lr * quantiles.grad`. -/
def quantileUpdate {N : ℕ} (cd : Fin N → K) (lr : K) (t q : Fin N → K) : Fin N → K :=
  fun j => q j - lr * quantileGrad cd t q j

/-- Lines 129-136 of `QuantileAgent.episode`: the bootstrap target vector.
Terminal: `np.zeros(N)` then `+= reward`.  Otherwise the next action is the
`np.argmax` of the per-action quantile means, its quantile vector is scaled by
the discount, and `reward` is added elementwise. -/
def QuantileAgent.targetVector {S A N : ℕ} [NeZero A] (ag : QuantileAgent K S A N)
    (reward : K) (next_state : Fin S) (done : Bool) : Fin N → K :=
  if done then
    fun _ => 0 + reward
  else
    let q_next := fun a => npMean (ag.q_values next_state a)
    let a_next := npArgmax q_next
    fun i => ag.discount * ag.q_values next_state a_next i + reward

/-- One loop iteration of `QuantileAgent.episode` after the environment step:
the step counter increments and the (state, action) row of the table receives
the gradient-descent step on the quantile loss against the bootstrap
target. -/
def QuantileAgent.transitionUpdate {S A N : ℕ} [NeZero A] (ag : QuantileAgent K S A N)
    (state : Fin S) (action : Fin A) (reward : K) (next_state : Fin S) (done : Bool) :
    QuantileAgent K S A N :=
  let target := ag.targetVector reward next_state done
  let quantiles := ag.q_values state action
  { ag with
    total_steps := ag.total_steps + 1
    q_values := fun s a =>
      if s = state ∧ a = action then quantileUpdate ag.cumulative_density ag.lr target quantiles
      else ag.q_values s a }

/-- `check_optimality` on a 2-D table: the boolean vector
`optimal = (q[:, 0] - q[:, 1]) > 0` must have `np.sum(optimal)` equal to its
length. -/
def check_optimality {S : ℕ} (q : Fin S → Fin 2 → K) : Bool :=
  decide ((Finset.univ.filter (fun s => 0 < q s 0 - q s 1)).card = Fintype.card (Fin S))

/-- `check_optimality` on a 3-D table first collapses the quantile axis by its
mean. -/
def check_optimality₃ {S N : ℕ} (q : Fin S → Fin 2 → Fin N → K) : Bool :=
  check_optimality (fun s a => npMean (q s a))

/-- `run_episodes`, with the agent abstracted to its observable pair
(value table, total step count) and the effect of one `agent.episode()` call
abstracted to a function `episodeFn` on that pair.  The loop runs an episode,
stops returning the agent state when the table passes `check_optimality`,
stops with the step count overwritten by `max_steps` when it exceeds
`max_steps`, and otherwise loops; `fuel` bounds the number of iterations
(`none` means the loop is still running after `fuel` iterations).  The value
`run_episodes` returns in Python is the `total_steps` component of the final
agent state. -/
def runEpisodes {S : ℕ} (episodeFn : (Fin S → Fin 2 → K) × ℕ → (Fin S → Fin 2 → K) × ℕ)
    (max_steps : ℕ) : ℕ → (Fin S → Fin 2 → K) × ℕ → Option ((Fin S → Fin 2 → K) × ℕ)
  | 0, _ => none
  | fuel + 1, st =>
    let st' := episodeFn st
    if check_optimality st'.1 then some st'
    else if max_steps < st'.2 then some (st'.1, max_steps)
    else runEpisodes episodeFn max_steps fuel st'

/-- Auxiliary for the derivative analysis of `huber` (not part of the
embedding): the quadratic defect `huber y = 0.5 * y ^ 2 - huberRem y`.  It
vanishes on `|y| < 1` and is `0.5 * (|y| - 1) ^ 2` outside, which makes the
kink of `huber` at `|y| = 1` a point where `huberRem` vanishes to second
order. -/
def huberRem (y : K) : K :=
  if 1 ≤ |y| then 0.5 * (|y| - 1) ^ 2 else 0

/-- Auxiliary: the derivative of `huberRem`. -/
def huberRemGrad (y : K) : K :=
  if 1 ≤ |y| then (|y| - 1) * sgn y else 0

/-! ### Helper lemmas -/

theorem le_npMax {A : ℕ} [NeZero A] (f : Fin A → K) (a : Fin A) : f a ≤ npMax f :=
  Finset.le_sup' f (Finset.mem_univ a)

theorem npMax_le {A : ℕ} [NeZero A] (f : Fin A → K) (b : K) (h : ∀ a, f a ≤ b) :
    npMax f ≤ b :=
  Finset.sup'_le _ f (fun a _ => h a)

theorem eq_npMax_iff {A : ℕ} [NeZero A] (f : Fin A → K) (i : Fin A) :
    f i = npMax f ↔ ∀ a, f a ≤ f i := by
  constructor
  · intro h a
    exact (le_npMax f a).trans h.ge
  · intro h
    exact le_antisymm (le_npMax f i) (npMax_le f _ h)

theorem foldl_argmax_le {A : ℕ} (f : Fin A → K) :
    ∀ (l : List (Fin A)) (acc : Fin A),
      f acc ≤ f (l.foldl (fun best i => if f best < f i then i else best) acc)
      ∧ ∀ i ∈ l, f i ≤ f (l.foldl (fun best i => if f best < f i then i else best) acc) := by
  intro l
  induction l with
  | nil =>
    intro acc
    exact ⟨le_rfl, by simp⟩
  | cons a l ih =>
    intro acc
    have hstep1 : f acc ≤ f (if f acc < f a then a else acc) := by
      by_cases h : f acc < f a
      · simpa [h] using le_of_lt h
      · simp [h]
    have hstep2 : f a ≤ f (if f acc < f a then a else acc) := by
      by_cases h : f acc < f a
      · simp [h]
      · simpa [h] using le_of_not_lt h
    obtain ⟨h1, h2⟩ := ih (if f acc < f a then a else acc)
    simp only [List.foldl_cons]
    refine ⟨hstep1.trans h1, ?_⟩
    intro i hi
    rcases List.mem_cons.1 hi with rfl | hi'
    · exact hstep2.trans h1
    · exact h2 i hi'

theorem le_npArgmax {A : ℕ} [NeZero A] (f : Fin A → K) (a : Fin A) :
    f a ≤ f (npArgmax f) := by
  simpa [npArgmax] using
    (foldl_argmax_le f (List.finRange A) ⟨0, Nat.pos_of_ne_zero (NeZero.ne A)⟩).2 a
      (List.mem_finRange a)

theorem mem_filter_best_iff {A : ℕ} [NeZero A] (q : Fin A → K) (i : Fin A) :
    i ∈ (List.finRange A).filter (fun i => decide (q i = npMax q)) ↔ ∀ a, q a ≤ q i := by
  rw [List.mem_filter]
  simpa [List.mem_finRange] using eq_npMax_iff q i

theorem check_optimality_eq_true_iff {S : ℕ} (q : Fin S → Fin 2 → K) :
    check_optimality q = true ↔ ∀ s, q s 1 < q s 0 := by
  unfold check_optimality
  rw [decide_eq_true_iff]
  constructor
  · intro h s
    have h2 : (Finset.univ.filter (fun s => 0 < q s 0 - q s 1)) = Finset.univ :=
      Finset.eq_univ_of_card _ (by simpa using h)
    have hs : s ∈ Finset.univ.filter (fun s => 0 < q s 0 - q s 1) := by
      rw [h2]; exact Finset.mem_univ s
    exact sub_pos.1 (Finset.mem_filter.1 hs).2
  · intro h
    have h2 : (Finset.univ.filter (fun s => 0 < q s 0 - q s 1)) = Finset.univ :=
      Finset.filter_true_of_mem (fun s _ => sub_pos.2 (h s))
    rw [h2, Finset.card_univ]

/-! ### Claim theorems -/

/-- C3: for Huber width `k = 1`, `huber x = 0.5 * x^2` when `|x| < 1` and
`huber x = |x| - 0.5` when `|x| ≥ 1`. -/
theorem huber_piecewise (x : K) :
    (|x| < 1 → huber x = 0.5 * x ^ 2) ∧ (1 ≤ |x| → huber x = |x| - 0.5) := by
  constructor
  · intro h
    simp only [huber, if_pos h]
    ring
  · intro h
    simp only [huber, if_neg (not_lt.2 h)]
    ring

/-- C3 witness: concrete evaluations on both branches. -/
theorem huber_piecewise_witness :
    (|(1 / 2 : ℚ)| < 1 ∧ huber (1 / 2 : ℚ) = 0.5 * (1 / 2 : ℚ) ^ 2)
    ∧ (1 ≤ |(3 : ℚ)| ∧ huber (3 : ℚ) = |(3 : ℚ)| - 0.5) :=
  ⟨⟨by rw [abs_of_pos (by norm_num : (0 : ℚ) < 1 / 2)]; norm_num,
    (huber_piecewise (1 / 2 : ℚ)).1 (by rw [abs_of_pos (by norm_num : (0 : ℚ) < 1 / 2)]; norm_num)⟩,
   ⟨by rw [abs_of_pos (by norm_num : (0 : ℚ) < 3)]; norm_num,
    (huber_piecewise (3 : ℚ)).2 (by rw [abs_of_pos (by norm_num : (0 : ℚ) < 3)]; norm_num)⟩⟩

/-- C5: the `QAgent` per-transition update replaces `Q(state, action)` by
`Q(state, action) + lr * (reward + target - Q(state, action))` with
`target = 0` when terminal and `discount * max Q(next_state)` otherwise. -/
theorem qagent_td_update (S A : ℕ) [NeZero A] (ag : QAgent K S A) (s : Fin S) (a : Fin A)
    (r : K) (s' : Fin S) (d : Bool) :
    (ag.transitionUpdate s a r s' d).q_values s a =
      ag.q_values s a +
        ag.lr * (r + (if d then 0 else ag.discount * npMax (fun a' => ag.q_values s' a'))
          - ag.q_values s a) := by
  simp [QAgent.transitionUpdate]

/-- C5 witness: the update applied to a concrete rational agent. -/
theorem qagent_td_update_witness :
    (QAgent.transitionUpdate (K := ℚ) ⟨fun _ _ => 0, 1 / 10, 1, 1 / 2, 0⟩
        (0 : Fin 2) (0 : Fin 2) 3 1 false).q_values 0 0 =
      0 + 1 / 2 * (3 + (if false then 0
        else 1 * npMax (fun _ : Fin 2 => (0 : ℚ))) - 0) := by
  simpa using
    qagent_td_update (K := ℚ) 2 2 ⟨fun _ _ => 0, 1 / 10, 1, 1 / 2, 0⟩ 0 0 3 1 false

/-- C6: the convergence check returns `true` iff after collapsing the
quantile axis by the mean the table satisfies
`Q(state, advance) > Q(state, escape)` strictly at every state; equality at
any state makes it `false`. -/
theorem check_optimality_spec (S N : ℕ) (q2 : Fin S → Fin 2 → K)
    (q3 : Fin S → Fin 2 → Fin N → K) :
    (check_optimality₃ q3 = true ↔ ∀ s, npMean (q3 s 1) < npMean (q3 s 0))
    ∧ (check_optimality q2 = true ↔ ∀ s, q2 s 1 < q2 s 0)
    ∧ (∀ s₀, q2 s₀ 0 = q2 s₀ 1 → check_optimality q2 = false) := by
  refine ⟨?_, check_optimality_eq_true_iff q2, ?_⟩
  · unfold check_optimality₃
    exact check_optimality_eq_true_iff _
  · intro s₀ he
    rcases Bool.eq_false_or_eq_true (check_optimality q2) with h | h
    · exfalso
      have hlt := (check_optimality_eq_true_iff q2).1 h s₀
      rw [he] at hlt
      exact lt_irrefl _ hlt
    · exact h

/-- C6 witness: a table with a tie is rejected. -/
theorem check_optimality_spec_witness :
    check_optimality (fun (_ : Fin 1) (_ : Fin 2) => (0 : ℚ)) = false :=
  (check_optimality_spec 1 1 (fun _ _ => (0 : ℚ)) (fun _ _ _ => 0)).2.2 0 rfl

/-- C9: any action other than 0 or 1 falls through both branches of
`Chain.step` and produces no transition (the Python method returns `None`
instead of a state/reward/done tuple). -/
theorem chain_step_invalid_action (c : Chain K) (z : K) (a : ℤ) (h0 : a ≠ 0) (h1 : a ≠ 1) :
    Chain.step c a z = none := by
  simp [Chain.step, h0, h1]

/-- C9 witness: action 2 on a concrete chain. -/
theorem chain_step_invalid_action_witness :
    (2 : ℤ) ≠ 0 ∧ (2 : ℤ) ≠ 1
    ∧ Chain.step (⟨5, 0, 0, 1⟩ : Chain ℚ) 2 0 = none :=
  ⟨by decide, by decide,
   chain_step_invalid_action (⟨5, 0, 0, 1⟩ : Chain ℚ) 0 2 (by decide) (by decide)⟩

theorem huber_zero : huber (0 : K) = 0 := by
  have h : |(0 : K)| < 1 := by rw [abs_zero]; exact zero_lt_one
  simp only [huber, if_pos h]
  ring

theorem huberGrad_zero : huberGrad (0 : K) = 0 := by
  have h : |(0 : K)| < 1 := by rw [abs_zero]; exact zero_lt_one
  simp only [huberGrad, if_pos h]
  ring

/-- C2: the bootstrap target is `reward` in every quantile slot on terminal
transitions, and otherwise the quantile vector of the next-state action of
maximal quantile mean, scaled by the discount with the reward added
elementwise; the selection uses the mean summary for every value of the
`mean_exploration` / `active_quantile` configuration. -/
theorem quantile_target_spec (S A N : ℕ) [NeZero A] (ag : QuantileAgent K S A N) (r : K)
    (s' : Fin S) :
    (∀ i, ag.targetVector r s' true i = r)
    ∧ (∀ i, ag.targetVector r s' false i =
        ag.discount * ag.q_values s' (npArgmax (fun a => npMean (ag.q_values s' a))) i + r)
    ∧ (∀ a, npMean (ag.q_values s' a) ≤
        npMean (ag.q_values s' (npArgmax (fun a => npMean (ag.q_values s' a)))))
    ∧ (∀ (me : Bool) (aq : ℤ) (d : Bool),
        ({ ag with mean_exploration := me, active_quantile := aq } :
          QuantileAgent K S A N).targetVector r s' d = ag.targetVector r s' d) := by
  refine ⟨fun i => by simp [QuantileAgent.targetVector],
    fun i => by simp [QuantileAgent.targetVector],
    fun a => le_npArgmax (fun a => npMean (ag.q_values s' a)) a,
    fun me aq d => rfl⟩

/-- C2 witness: terminal target on a concrete rational agent. -/
theorem quantile_target_spec_witness :
    (QuantileAgent.init (K := ℚ) 1 2 2 (1 / 10) (1 / 10) 1 false (-1)).targetVector 7 0 true 0
      = 7 :=
  (quantile_target_spec 1 2 2 (QuantileAgent.init (K := ℚ) 1 2 2 (1 / 10) (1 / 10) 1 false (-1))
    7 0).1 0

/-- C10: either agent's per-transition update leaves every value-table entry
at a pair other than the transition's (state, action) unchanged, and the
quantile agent's cumulative-density vector is unchanged by the update and is
the constant `(2k+1)/(2N)` vector at construction. -/
theorem update_frame_conditions (S A N : ℕ) [NeZero A] (ag : QAgent K S A)
    (agq : QuantileAgent K S A N) (s : Fin S) (a : Fin A) (r : K) (s' : Fin S) (d : Bool) :
    (∀ s₂ a₂, ¬(s₂ = s ∧ a₂ = a) →
        (ag.transitionUpdate s a r s' d).q_values s₂ a₂ = ag.q_values s₂ a₂)
    ∧ (∀ s₂ a₂, ¬(s₂ = s ∧ a₂ = a) →
        (agq.transitionUpdate s a r s' d).q_values s₂ a₂ = agq.q_values s₂ a₂)
    ∧ (agq.transitionUpdate s a r s' d).cumulative_density = agq.cumulative_density
    ∧ (QuantileAgent.init (K := K) S A N agq.lr agq.epsilon agq.discount agq.mean_exploration
        agq.active_quantile).cumulative_density = cumulativeDensity N :=
  ⟨fun s₂ a₂ h => by simp [QAgent.transitionUpdate, h],
   fun s₂ a₂ h => by simp [QuantileAgent.transitionUpdate, h],
   rfl, rfl⟩

/-- C10 witness: a concrete off-slot entry is untouched. -/
theorem update_frame_conditions_witness :
    (QAgent.transitionUpdate (K := ℚ) ⟨fun _ _ => 0, 1 / 10, 1, 1 / 2, 0⟩
        (0 : Fin 2) (0 : Fin 2) 3 1 false).q_values 1 0 = 0 :=
  (update_frame_conditions 2 2 2 ⟨fun _ _ => 0, 1 / 10, 1, 1 / 2, 0⟩
    (QuantileAgent.init (K := ℚ) 2 2 2 (1 / 10) (1 / 10) 1 false (-1)) 0 0 3 1 false).1
    1 0 (by simp)

/-- C8: one iteration of `run_episodes` stops with the agent state as soon as
the convergence check passes, stops with the step count overwritten by
`max_steps` when the check fails and the count exceeds the budget, and
otherwise loops; any returned state either passes the check or carries
exactly `max_steps` steps. -/
theorem run_episodes_control (S : ℕ)
    (episodeFn : (Fin S → Fin 2 → K) × ℕ → (Fin S → Fin 2 → K) × ℕ)
    (max_steps fuel : ℕ) (st : (Fin S → Fin 2 → K) × ℕ) :
    (check_optimality (episodeFn st).1 = true →
        runEpisodes episodeFn max_steps (fuel + 1) st = some (episodeFn st))
    ∧ (check_optimality (episodeFn st).1 = false → max_steps < (episodeFn st).2 →
        runEpisodes episodeFn max_steps (fuel + 1) st = some ((episodeFn st).1, max_steps))
    ∧ (check_optimality (episodeFn st).1 = false → ¬max_steps < (episodeFn st).2 →
        runEpisodes episodeFn max_steps (fuel + 1) st
          = runEpisodes episodeFn max_steps fuel (episodeFn st))
    ∧ (∀ res, runEpisodes episodeFn max_steps fuel st = some res →
        check_optimality res.1 = true ∨ res.2 = max_steps) := by
  refine ⟨fun h => by simp [runEpisodes, h],
    fun h hlt => by simp [runEpisodes, h, hlt],
    fun h hnlt => by simp [runEpisodes, h, hnlt], ?_⟩
  induction fuel generalizing st with
  | zero =>
    intro res h
    simp [runEpisodes] at h
  | succ n ih =>
    intro res h
    by_cases h1 : check_optimality (episodeFn st).1
    · simp [runEpisodes, h1] at h
      subst h
      exact Or.inl h1
    · by_cases h2 : max_steps < (episodeFn st).2
      · simp [runEpisodes, h1, h2] at h
        subst h
        exact Or.inr rfl
      · simp only [runEpisodes, h1, h2, if_false, Bool.false_eq_true, ite_false] at h
        exact ih (episodeFn st) res h

/-- C8 witness: with an optimal table after one episode the loop returns the
agent state after that episode. -/
theorem run_episodes_control_witness :
    runEpisodes (K := ℚ) (S := 1) (fun st => (fun _ => ![1, 0], st.2 + 7)) 100 1
        (fun _ => ![0, 0], 0)
      = some (fun _ => ![1, 0], 7) :=
  (run_episodes_control (K := ℚ) 1 (fun st => (fun _ => ![1, 0], st.2 + 7)) 100 0
    (fun _ => ![0, 0], 0)).1
    ((check_optimality_eq_true_iff _).2 (fun _ => by norm_num))

/-- C4 counterexample: with `N = 2` quantiles, the code's cumulative-density
vector, and target equal to the current quantile vector `(0, 1)`, the
pairwise loss is `1/16`, not `0` (the off-diagonal pairwise differences are
not zero), so the claim as stated fails. -/
theorem quantile_target_eq_current_cex :
    ¬(quantileLoss (K := ℚ) (cumulativeDensity 2) ![0, 1] ![0, 1] = 0
      ∧ quantileUpdate (K := ℚ) (cumulativeDensity 2) (1 / 10) ![0, 1] ![0, 1] = ![0, 1]) := by
  intro hcl
  have h1 := hcl.1
  have he : quantileLoss (K := ℚ) (cumulativeDensity 2) ![0, 1] ![0, 1] = 1 / 16 := by
    have ha : |(-1 : ℚ)| = 1 := by rw [abs_neg, abs_one]
    have hb : |(1 : ℚ)| = 1 := abs_one
    have hc : |(3 / 4 - 1 : ℚ)| = 1 / 4 := by
      rw [show (3 / 4 - 1 : ℚ) = -(1 / 4) by norm_num, abs_neg,
        abs_of_pos (by norm_num : (0 : ℚ) < 1 / 4)]
    have hd : |(1 / 4 - 0 : ℚ)| = 1 / 4 := by
      rw [show (1 / 4 - 0 : ℚ) = 1 / 4 by norm_num,
        abs_of_pos (by norm_num : (0 : ℚ) < 1 / 4)]
    have he4 : |(1 / 4 : ℚ)| = 1 / 4 := abs_of_pos (by norm_num)
    simp only [quantileLoss, Fin.sum_univ_two, Matrix.cons_val_zero, Matrix.cons_val_one,
      Matrix.head_cons, cumulativeDensity, huber]
    norm_num [ha, hb, hc, hd, he4, huber_zero]
  rw [he] at h1
  norm_num at h1

/-- C4 (amended): when every pairwise difference `target[i] - current[j]`
vanishes (equivalently, target and current are equal constant vectors — mere
equality `target = current` is not enough, as the counterexample shows), the
total quantile loss is exactly 0 and the gradient step leaves the quantile
vector unchanged. -/
theorem quantile_zero_pairwise_diff (N : ℕ) (cd t q : Fin N → K) (lr : K)
    (h : ∀ i j, t i - q j = 0) :
    quantileLoss cd t q = 0 ∧ quantileUpdate cd lr t q = q := by
  constructor
  · unfold quantileLoss
    rw [Finset.sum_eq_zero, zero_div]
    intro i _
    rw [Finset.sum_eq_zero]
    intro j _
    rw [h i j, huber_zero, zero_mul]
  · funext j
    have hs : (∑ i, -huberGrad (t i - q j) * |cd j - if t i - q j < 0 then 1 else 0|) = 0 :=
      Finset.sum_eq_zero (fun i _ => by rw [h i j, huberGrad_zero]; ring)
    unfold quantileUpdate quantileGrad
    rw [hs]
    simp

/-- C4 witness: equal constant vectors give zero loss and an unchanged
update. -/
theorem quantile_zero_pairwise_diff_witness :
    quantileLoss (K := ℚ) (cumulativeDensity 2) (fun _ : Fin 2 => 5) (fun _ => 5) = 0
    ∧ quantileUpdate (K := ℚ) (cumulativeDensity 2) (1 / 10) (fun _ : Fin 2 => 5)
        (fun _ => 5) = fun _ => 5 :=
  quantile_zero_pairwise_diff 2 (cumulativeDensity 2) (fun _ => 5) (fun _ => 5) (1 / 10)
    (fun _ _ => by norm_num)

/-- C7: in evaluation mode `QuantileAgent.act` never consults epsilon and
draws from exactly the actions of maximal quantile mean; in training mode the
epsilon branch fires when the uniform draw is below epsilon, and otherwise the
draw is from exactly the actions maximizing the configured summary — the
quantile mean when `mean_exploration`, else the single `active_quantile` entry
with Python negative indexing, `-1` denoting the last quantile. -/
theorem quantile_act_spec (S A N : ℕ) [NeZero A] (ag : QuantileAgent K S A N) (s : Fin S)
    (r : K) :
    (∃ l, ag.act s true r = some (ActionDraw.uniformAmong l)
        ∧ ∀ i, i ∈ l ↔ ∀ a, npMean (ag.q_values s a) ≤ npMean (ag.q_values s i))
    ∧ (r < ag.epsilon → ag.act s false r = some ActionDraw.uniformRandom)
    ∧ (¬r < ag.epsilon → ag.mean_exploration = true →
        ∃ l, ag.act s false r = some (ActionDraw.uniformAmong l)
          ∧ ∀ i, i ∈ l ↔ ∀ a, npMean (ag.q_values s a) ≤ npMean (ag.q_values s i))
    ∧ (¬r < ag.epsilon → ag.mean_exploration = false →
        ∀ k, pyIndex N ag.active_quantile = some k →
          ∃ l, ag.act s false r = some (ActionDraw.uniformAmong l)
            ∧ ∀ i, i ∈ l ↔ ∀ a, ag.q_values s a k ≤ ag.q_values s i k)
    ∧ (∀ _ : 0 < N, ∃ hlt : N - 1 < N, pyIndex N (-1) = some ⟨N - 1, hlt⟩) := by
  refine ⟨?_, ?_, ?_, ?_, ?_⟩
  · refine ⟨_, ?_, fun i => mem_filter_best_iff (fun a => npMean (ag.q_values s a)) i⟩
    simp [QuantileAgent.act]
  · intro h
    simp [QuantileAgent.act, h]
  · intro h hme
    have hact : ag.act s false r = some (ActionDraw.uniformAmong ((List.finRange A).filter
        (fun i => decide (npMean (ag.q_values s i)
          = npMax (fun a => npMean (ag.q_values s a)))))) := by
      simp [QuantileAgent.act, h, hme]
    exact ⟨_, hact, fun i => mem_filter_best_iff (fun a => npMean (ag.q_values s a)) i⟩
  · intro h hme k hk
    have hact : ag.act s false r = some (ActionDraw.uniformAmong ((List.finRange A).filter
        (fun i => decide (ag.q_values s i k
          = npMax (fun a => ag.q_values s a k))))) := by
      simp [QuantileAgent.act, h, hme, hk]
    exact ⟨_, hact, fun i => mem_filter_best_iff (fun a => ag.q_values s a k) i⟩
  · intro hN
    refine ⟨by omega, ?_⟩
    simp only [pyIndex]
    split
    · split
      · simp only [Option.some.injEq, Fin.mk.injEq]
        omega
      · rename_i h2
        exfalso
        omega
    · rename_i h2
      exact absurd (by norm_num : (-1 : ℤ) < 0) h2

/-- C7 witness: the epsilon branch on a concrete rational agent. -/
theorem quantile_act_spec_witness :
    (QuantileAgent.init (K := ℚ) 1 2 2 (1 / 10) (1 / 2) 1 false (-1)).act 0 false 0
      = some ActionDraw.uniformRandom :=
  (quantile_act_spec 1 2 2 (QuantileAgent.init (K := ℚ) 1 2 2 (1 / 10) (1 / 2) 1 false (-1))
    0 0).2.1 (by norm_num [QuantileAgent.init])

theorem hasDerivAt_zero_of_sq_bound {f : ℝ → ℝ} {x C : ℝ} (hfx : f x = 0)
    (hb : ∀ᶠ y in nhds x, |f y| ≤ C * (y - x) ^ 2) : HasDerivAt f 0 x := by
  rw [hasDerivAt_iff_isLittleO]
  have he : (fun y => f y - f x - (y - x) • (0 : ℝ)) = fun y => f y := by
    funext y
    simp [hfx]
  rw [he, Asymptotics.isLittleO_iff]
  intro c hc
  have hδ : (0 : ℝ) < c / (|C| + 1) := by positivity
  have hev : ∀ᶠ y in nhds x, |y - x| < c / (|C| + 1) := by
    filter_upwards [Metric.ball_mem_nhds x hδ] with y hy
    rwa [Metric.mem_ball, Real.dist_eq] at hy
  filter_upwards [hb, hev] with y h1 h2
  rw [Real.norm_eq_abs, Real.norm_eq_abs]
  have h2' : |y - x| * (|C| + 1) ≤ c := by
    rw [← le_div_iff₀ (by positivity)]
    exact h2.le
  have h3 : |f y| ≤ |C| * (y - x) ^ 2 := h1.trans (by
    nlinarith [le_abs_self C, sq_nonneg (y - x)])
  have h4 : (y - x) ^ 2 = |y - x| * |y - x| := by
    rw [← sq_abs]
    ring
  calc |f y| ≤ |C| * (y - x) ^ 2 := h3
    _ = |C| * (|y - x| * |y - x|) := by rw [h4]
    _ ≤ (|C| + 1) * |y - x| * |y - x| := by
        nlinarith [mul_nonneg (abs_nonneg (y - x)) (abs_nonneg (y - x))]
    _ = |y - x| * (|C| + 1) * |y - x| := by ring
    _ ≤ c * |y - x| := mul_le_mul_of_nonneg_right h2' (abs_nonneg (y - x))

theorem huber_eq_sub_huberRem (y : ℝ) : huber y = 0.5 * y ^ 2 - huberRem y := by
  rcases lt_or_le |y| 1 with h | h
  · simp only [huber, huberRem, if_pos h, if_neg (not_le.2 h)]
    ring
  · simp only [huber, huberRem, if_neg (not_lt.2 h), if_pos h]
    rw [← sq_abs y]
    ring

theorem huber_nonneg (x : ℝ) : 0 ≤ huber x := by
  unfold huber
  rcases lt_or_le |x| 1 with h | h
  · rw [if_pos h]
    nlinarith [sq_nonneg x]
  · rw [if_neg (not_lt.2 h)]
    nlinarith [h]

theorem huber_le_half_sq (x : ℝ) : huber x ≤ 0.5 * x ^ 2 := by
  unfold huber
  rcases lt_or_le |x| 1 with h | h
  · rw [if_pos h]
    nlinarith [sq_nonneg x]
  · rw [if_neg (not_lt.2 h)]
    nlinarith [sq_nonneg (|x| - 1), sq_abs x]

theorem huberRem_nonneg (y : K) : 0 ≤ huberRem y := by
  unfold huberRem
  split
  · positivity
  · exact le_refl 0

theorem hasDerivAt_huberRem (x : ℝ) : HasDerivAt huberRem (huberRemGrad x) x := by
  rcases lt_trichotomy |x| 1 with h | h | h
  · have h0 : huberRemGrad x = 0 := by simp [huberRemGrad, not_le.2 h]
    rw [h0]
    refine (hasDerivAt_const x 0).congr_of_eventuallyEq ?_
    filter_upwards [(isOpen_lt continuous_abs continuous_const).mem_nhds h] with y hy
    simp [huberRem, not_le.2 hy]
  · have hx0 : huberRem x = 0 := by simp [huberRem, h]
    have hg : huberRemGrad x = 0 := by simp [huberRemGrad, h]
    rw [hg]
    apply hasDerivAt_zero_of_sq_bound (C := 0.5) hx0
    rcases (abs_eq (by norm_num : (0 : ℝ) ≤ 1)).1 h with h1 | h1
    · subst h1
      filter_upwards [(isOpen_lt continuous_const continuous_id).mem_nhds
        (show (0 : ℝ) < 1 by norm_num)] with y hy
      have hy' : (0 : ℝ) < y := hy
      rw [abs_of_nonneg (huberRem_nonneg y)]
      unfold huberRem
      rw [abs_of_pos hy']
      split
      · exact le_of_eq (by ring)
      · positivity
    · subst h1
      filter_upwards [(isOpen_lt continuous_id continuous_const).mem_nhds
        (show (-1 : ℝ) < 0 by norm_num)] with y hy
      have hy' : y < (0 : ℝ) := hy
      rw [abs_of_nonneg (huberRem_nonneg y)]
      unfold huberRem
      rw [abs_of_neg hy']
      split
      · exact le_of_eq (by ring)
      · positivity
  · rcases lt_abs.1 h with h1 | h1
    · have hd : HasDerivAt (fun y : ℝ => 0.5 * (y - 1) ^ 2) (x - 1) x := by
        have h2 := (((hasDerivAt_id' (𝕜 := ℝ) x).sub_const 1).pow 2).const_mul (0.5 : ℝ)
        convert h2 using 1
        push_cast
        ring
      have hg : huberRemGrad x = x - 1 := by
        have hs : sgn x = (1 : ℝ) := by
          unfold sgn
          rw [if_neg (by linarith : ¬x < (0 : ℝ)), if_pos (by linarith : (0 : ℝ) < x)]
        unfold huberRemGrad
        rw [abs_of_pos (by linarith : (0 : ℝ) < x), if_pos (by linarith : (1 : ℝ) ≤ x), hs]
        ring
      rw [hg]
      refine hd.congr_of_eventuallyEq ?_
      filter_upwards [(isOpen_lt continuous_const continuous_id).mem_nhds h1] with y hy
      have hy' : (1 : ℝ) < y := hy
      unfold huberRem
      rw [abs_of_pos (by linarith : (0 : ℝ) < y), if_pos hy'.le]
    · have hxneg : x < -1 := by linarith
      have hd : HasDerivAt (fun y : ℝ => 0.5 * (-y - 1) ^ 2) (x + 1) x := by
        have h2 := ((((hasDerivAt_id' (𝕜 := ℝ) x).neg).sub_const 1).pow 2).const_mul (0.5 : ℝ)
        convert h2 using 1
        push_cast
        ring
      have hg : huberRemGrad x = x + 1 := by
        have hs : sgn x = (-1 : ℝ) := by
          unfold sgn
          rw [if_pos (by linarith : x < (0 : ℝ))]
        unfold huberRemGrad
        rw [abs_of_neg (by linarith : x < (0 : ℝ)), if_pos (by linarith : (1 : ℝ) ≤ -x), hs]
        ring
      rw [hg]
      refine hd.congr_of_eventuallyEq ?_
      filter_upwards [(isOpen_lt continuous_id continuous_const).mem_nhds hxneg] with y hy
      have hy' : y < (-1 : ℝ) := hy
      unfold huberRem
      rw [abs_of_neg (by linarith : y < (0 : ℝ)), if_pos (by linarith : (1 : ℝ) ≤ -y)]

theorem huberGrad_eq_sub (x : ℝ) : huberGrad x = x - huberRemGrad x := by
  rcases lt_or_le |x| 1 with h | h
  · simp only [huberGrad, huberRemGrad, if_pos h, if_neg (not_le.2 h)]
    ring
  · simp only [huberGrad, huberRemGrad, if_neg (not_lt.2 h), if_pos h]
    rcases le_abs'.1 h with h1 | h1
    · have hs : sgn x = (-1 : ℝ) := by
        unfold sgn
        rw [if_pos (by linarith : x < (0 : ℝ))]
      rw [abs_of_neg (by linarith : x < (0 : ℝ)), hs]
      ring
    · have hs : sgn x = (1 : ℝ) := by
        unfold sgn
        rw [if_neg (by linarith : ¬x < (0 : ℝ)), if_pos (by linarith : (0 : ℝ) < x)]
      rw [abs_of_pos (by linarith : (0 : ℝ) < x), hs]
      ring

theorem hasDerivAt_huber (x : ℝ) : HasDerivAt (fun y : ℝ => huber y) (huberGrad x) x := by
  have h1 : HasDerivAt (fun y : ℝ => 0.5 * y ^ 2) x x := by
    have h2 := (hasDerivAt_pow 2 x).const_mul (0.5 : ℝ)
    convert h2 using 1
    push_cast
    ring
  have h3 := h1.sub (hasDerivAt_huberRem x)
  have he : (fun y : ℝ => 0.5 * y ^ 2 - huberRem y) = fun y => huber y := by
    funext y
    rw [huber_eq_sub_huberRem]
  rw [huberGrad_eq_sub]
  exact he ▸ h3

theorem hasDerivAt_quantileTerm (t τ x : ℝ) :
    HasDerivAt (fun y => huber (t - y) * |τ - if t - y < 0 then 1 else 0|)
      (-huberGrad (t - x) * |τ - if t - x < 0 then 1 else 0|) x := by
  have hinner : HasDerivAt (fun y : ℝ => t - y) (-1) x := by
    simpa using (hasDerivAt_const x t).sub (hasDerivAt_id' (𝕜 := ℝ) x)
  rcases lt_trichotomy (t - x) 0 with hd | hd | hd
  · have hcomp := (hasDerivAt_huber (t - x)).comp x hinner
    have hmul := hcomp.mul_const |τ - (1 : ℝ)|
    have hfin : HasDerivAt (fun y => huber (t - y) * |τ - if t - y < 0 then 1 else 0|)
        (huberGrad (t - x) * -1 * |τ - (1 : ℝ)|) x := by
      refine hmul.congr_of_eventuallyEq ?_
      filter_upwards [(isOpen_lt continuous_const continuous_id).mem_nhds
        (show t < x by linarith)] with y hy
      have hy' : t < y := hy
      rw [if_pos (by linarith : t - y < 0)]
      rfl
    convert hfin using 1
    rw [if_pos hd]
    ring
  · have hval : (fun y => huber (t - y) * |τ - if t - y < 0 then 1 else 0|) x = 0 := by
      show huber (t - x) * |τ - if t - x < 0 then 1 else 0| = 0
      rw [hd, huber_zero, zero_mul]
    have hbound : ∀ᶠ y in nhds x,
        abs (huber (t - y) * |τ - if t - y < 0 then 1 else 0|)
          ≤ (0.5 * (|τ| + 1)) * (y - x) ^ 2 := by
      filter_upwards with y
      have habs : abs (huber (t - y) * |τ - if t - y < 0 then 1 else 0|)
          = huber (t - y) * |τ - if t - y < 0 then 1 else 0| := by
        rw [abs_mul, abs_of_nonneg (huber_nonneg _), abs_abs]
      rw [habs]
      have h2 : |τ - (if t - y < 0 then (1 : ℝ) else 0)| ≤ |τ| + 1 := by
        split
        · calc |τ - 1| ≤ |τ| + |(1 : ℝ)| := abs_sub τ 1
            _ = |τ| + 1 := by rw [abs_one]
        · calc |τ - 0| = |τ| := by rw [sub_zero]
            _ ≤ |τ| + 1 := by linarith
      have h3 : huber (t - y) ≤ 0.5 * (t - y) ^ 2 := huber_le_half_sq _
      have h4 : (t - y) ^ 2 = (y - x) ^ 2 := by
        have ht : t = x := by linarith
        rw [ht]
        ring
      calc huber (t - y) * |τ - if t - y < 0 then 1 else 0|
          ≤ (0.5 * (t - y) ^ 2) * (|τ| + 1) :=
            mul_le_mul h3 h2 (abs_nonneg _) (by positivity)
        _ = 0.5 * (|τ| + 1) * (y - x) ^ 2 := by rw [h4]; ring
    have hder := hasDerivAt_zero_of_sq_bound
      (f := fun y => huber (t - y) * |τ - if t - y < 0 then 1 else 0|) (x := x) hval hbound
    convert hder using 1
    rw [hd, huberGrad_zero]
    ring
  · have hcomp := (hasDerivAt_huber (t - x)).comp x hinner
    have hmul := hcomp.mul_const |τ - (0 : ℝ)|
    have hfin : HasDerivAt (fun y => huber (t - y) * |τ - if t - y < 0 then 1 else 0|)
        (huberGrad (t - x) * -1 * |τ - (0 : ℝ)|) x := by
      refine hmul.congr_of_eventuallyEq ?_
      filter_upwards [(isOpen_lt continuous_id continuous_const).mem_nhds
        (show x < t by linarith)] with y hy
      have hy' : y < t := hy
      rw [if_neg (by linarith : ¬t - y < 0)]
      rfl
    convert hfin using 1
    rw [if_neg (by linarith : ¬t - x < 0)]
    ring

theorem hasDerivAt_quantileLoss {N : ℕ} (cd t q : Fin N → ℝ) (j : Fin N) :
    HasDerivAt (fun y => quantileLoss cd t (Function.update q j y))
      (quantileGrad cd t q j) (q j) := by
  have hterm : ∀ i j' : Fin N, HasDerivAt
      (fun y => huber (t i - Function.update q j y j')
        * |cd j' - if t i - Function.update q j y j' < 0 then 1 else 0|)
      (if j' = j then -huberGrad (t i - q j) * |cd j - if t i - q j < 0 then 1 else 0| else 0)
      (q j) := by
    intro i j'
    by_cases hjj : j' = j
    · subst hjj
      simp only [Function.update_same, if_pos rfl]
      exact hasDerivAt_quantileTerm (t i) (cd j') (q j')
    · simp only [Function.update_noteq hjj, if_neg hjj]
      exact hasDerivAt_const (q j) _
  have hrow : ∀ i : Fin N, HasDerivAt
      (fun y => ∑ j', huber (t i - Function.update q j y j')
        * |cd j' - if t i - Function.update q j y j' < 0 then 1 else 0|)
      (-huberGrad (t i - q j) * |cd j - if t i - q j < 0 then 1 else 0|) (q j) := by
    intro i
    have h2 := HasDerivAt.sum (u := Finset.univ) (fun j' _ => hterm i j')
    rwa [Finset.sum_ite_eq' Finset.univ j
      (fun _ => -huberGrad (t i - q j) * |cd j - if t i - q j < 0 then 1 else 0|),
      if_pos (Finset.mem_univ j)] at h2
  have hsum := HasDerivAt.sum (u := Finset.univ) (fun i _ => hrow i)
  unfold quantileLoss quantileGrad
  exact hsum.div_const _

/-- C1: for every transition, the quantile agent's update replaces
`Q(state, action)` by itself minus `lr` times the gradient — in the exact
sense of `HasDerivAt` in each coordinate of the current quantile vector — of
the total loss `quantileLoss`, which is the mean over all `N × N` pairwise
entries `huber(target[i] - current[j]) * |cd[j] - 1{target[i] - current[j] < 0}|`
with the cumulative density indexed along the current-quantile axis `j`. -/
theorem quantile_update_is_gradient_step (S A N : ℕ) [NeZero A]
    (ag : QuantileAgent ℝ S A N) (s : Fin S) (a : Fin A) (r : ℝ) (s' : Fin S) (d : Bool)
    (j : Fin N) :
    ((ag.transitionUpdate s a r s' d).q_values s a) j
      = ag.q_values s a j
        - ag.lr * quantileGrad ag.cumulative_density (ag.targetVector r s' d)
            (ag.q_values s a) j
    ∧ HasDerivAt
        (fun y => quantileLoss ag.cumulative_density (ag.targetVector r s' d)
          (Function.update (ag.q_values s a) j y))
        (quantileGrad ag.cumulative_density (ag.targetVector r s' d) (ag.q_values s a) j)
        (ag.q_values s a j) :=
  ⟨by simp [QuantileAgent.transitionUpdate, quantileUpdate],
   hasDerivAt_quantileLoss ag.cumulative_density (ag.targetVector r s' d) (ag.q_values s a) j⟩

/-- C1 witness: on the zero-initialised agent and a terminal zero-reward
transition the gradient vanishes and the slot stays `0`. -/
theorem quantile_update_is_gradient_step_witness :
    ((QuantileAgent.init (K := ℝ) 1 1 2 (1 / 10) (1 / 10) 1 false (-1)).transitionUpdate
        0 0 0 0 true).q_values 0 0 0 = 0 := by
  have h := (quantile_update_is_gradient_step 1 1 2
    (QuantileAgent.init (K := ℝ) 1 1 2 (1 / 10) (1 / 10) 1 false (-1)) 0 0 0 0 true 0).1
  rw [h]
  simp [QuantileAgent.init, QuantileAgent.targetVector, quantileGrad, Fin.sum_univ_two,
    huberGrad_zero]

end DeepRL
